import Mathlib

/-!
Verification of the Thermography imaging pipeline (Imaging_pipeline_backbone).

The development shallowly embeds the string-processing, grouping, quality-gate,
merging, preprocessing and saving logic of the pipeline's concrete Thermography
products.  Filenames are modelled as `List Char`, pixel values as `ℚ`, and the
working-directory protocol as association lists.  Each embedded definition is a
direct transcription of the corresponding Python function.
-/

namespace Pipeline

/-- A filename or path, modelled as its character list. -/
abbrev Name := List Char

/-- `os.path.basename`: the part of the path after the last `/` separator. -/
def basename (p : Name) : Name := (p.reverse.takeWhile (fun c => c != '/')).reverse

/-!
## The frequency-token regex

The sources strip the frequency substring with `re.sub("[0-9]+_?[0-9]*Hz", "", s)`.
`matchFreq` decides whether this pattern matches at the head of a string, and if
so returns the remainder after the (leftmost, greedy, per Python backtracking)
match.  A match is a nonempty digit run, optionally followed by `_` and a further
digit run, followed by the literal `Hz`.
-/

/-- Match the literal `Hz` at the head of a string, returning the remainder. -/
def stripHz : Name → Option Name
  | 'H' :: 'z' :: r => some r
  | _ => none

/-- Attempt to match the regex `[0-9]+_?[0-9]*Hz` at the head of `cs`;
on success return the remainder after the matched text. -/
def matchFreq (cs : Name) : Option Name :=
  let d := cs.takeWhile Char.isDigit
  let rest := cs.dropWhile Char.isDigit
  if d.isEmpty then none
  else
    match stripHz rest with
    | some r => some r
    | none =>
      match rest with
      | '_' :: r2 => stripHz (r2.dropWhile Char.isDigit)
      | _ => none

theorem stripHz_length {l r : Name} (h : stripHz l = some r) :
    r.length + 2 = l.length := by
  unfold stripHz at h
  split at h
  · cases h; simp
  · cases h

theorem matchFreq_length {cs r : Name} (h : matchFreq cs = some r) :
    r.length < cs.length := by
  have hsplit : cs.takeWhile Char.isDigit ++ cs.dropWhile Char.isDigit = cs :=
    List.takeWhile_append_dropWhile Char.isDigit cs
  have hlen : (cs.takeWhile Char.isDigit).length +
      (cs.dropWhile Char.isDigit).length = cs.length := by
    conv_rhs => rw [← hsplit]
    rw [List.length_append]
  simp only [matchFreq] at h
  split at h
  · cases h
  · rename_i hne
    have hd1 : 1 ≤ (cs.takeWhile Char.isDigit).length := by
      cases he : cs.takeWhile Char.isDigit with
      | nil => rw [he] at hne; simp at hne
      | cons a l => simp
    split at h
    · rename_i r' hr'
      cases h
      have := stripHz_length hr'
      omega
    · split at h
      · rename_i r2 hr2
        have h2 := stripHz_length h
        have h3 : (r2.dropWhile Char.isDigit).length ≤ r2.length :=
          ((List.dropWhile_suffix Char.isDigit).sublist).length_le
        rw [hr2] at hlen
        simp only [List.length_cons] at hlen
        omega
      · cases h

/-!
## Stripping every occurrence of the frequency token

`stripFreq` is `re.sub("[0-9]+_?[0-9]*Hz", "", s)`: scan left to right; at each
position, if the pattern matches, delete the matched text and continue after it,
otherwise keep the character.  The recursion is driven by a fuel argument equal
to the string length; every step consumes at least one character, so the fuel
never runs out (`stripFreqF_fuel` below makes this robustness precise).
-/

def stripFreqF : Nat → Name → Name
  | _, [] => []
  | 0, l => l
  | fuel + 1, c :: cs =>
    match matchFreq (c :: cs) with
    | some r => stripFreqF fuel r
    | none => c :: stripFreqF fuel cs

/-- Remove every occurrence of `[0-9]+_?[0-9]*Hz` from the string. -/
def stripFreq (l : Name) : Name := stripFreqF l.length l

theorem stripFreqF_fuel : ∀ (fuel fuel' : Nat) (l : Name),
    l.length ≤ fuel → l.length ≤ fuel' → stripFreqF fuel l = stripFreqF fuel' l := by
  intro fuel
  induction fuel with
  | zero =>
    intro fuel' l h1 _
    cases l with
    | nil => cases fuel' <;> rfl
    | cons c cs => simp at h1
  | succ n ih =>
    intro fuel' l h1 h2
    cases l with
    | nil => cases fuel' <;> rfl
    | cons c cs =>
      cases fuel' with
      | zero => simp at h2
      | succ m =>
        simp only [stripFreqF]
        cases hm : matchFreq (c :: cs) with
        | some r =>
          have hr := matchFreq_length hm
          simp only [List.length_cons] at h1 h2 hr
          exact ih m r (by omega) (by omega)
        | none =>
          simp only [List.length_cons] at h1 h2
          rw [ih m cs (by omega) (by omega)]

/-!
## Splitting on the double-space separator

`re.split('\s\s', key)` splits on two consecutive whitespace characters,
scanning left to right with non-overlapping matches.
-/

/-- Python's `\s` class (ASCII range): space, tab, newline, CR, VT, FF. -/
def isSpaceC (c : Char) : Bool :=
  c == ' ' || c == '\t' || c == '\n' || c == '\r' || c == '\x0b' || c == '\x0c'

/-- `re.split('\s\s', ·)`: split a string at each non-overlapping pair of
consecutive whitespace characters. -/
def splitDS : Name → List Name
  | [] => [[]]
  | [c] => [[c]]
  | a :: b :: rest =>
    if isSpaceC a && isSpaceC b then [] :: splitDS rest
    else
      match splitDS (b :: rest) with
      | x :: xs => (a :: x) :: xs
      | [] => [[a]]

/-- Reading `split_path[0]` and `split_path[1]`: the first two fragments of the
split, or `none` when the split yields fewer than two parts (Python would raise
`IndexError` there). -/
def splitKey (key : Name) : Option (Name × Name) :=
  match splitDS key with
  | p :: s :: _ => some (p, s)
  | _ => none

/-!
## Substring matching and the Frequency-Group Matcher

For a group key split into `(prefix, suffix)` the sources select
`[s for s in image_paths if split_path[0] in s]` and then filter that list by
`split_path[1] in s`: plain substring containment.
-/

/-- Python's `needle in haystack` on strings: contiguous substring test. -/
def containsSub (hay needle : Name) : Bool :=
  hay.tails.any (fun t => needle.isPrefixOf t)

/-- The per-key matching step of `Asses` / `load_images`: split the ungrouped key
on the double-space separator and keep the filenames containing both fragments
as substrings.  `none` models the `IndexError` on a key with no double space. -/
def matchGroup (files : List Name) (key : Name) : Option (List Name) :=
  (splitKey key).map (fun ps =>
    (files.filter (fun f => containsSub f ps.1)).filter (fun f => containsSub f ps.2))

/-- The matched paths of a key, defaulting to `[]`. -/
def matchedOf (files : List Name) (key : Name) : List Name :=
  (matchGroup files key).getD []

/-- `set(uip)` where `uip = [re.sub("[0-9]+_?[0-9]*Hz", "", basename(s)) ...]`:
the distinct ungrouped keys of the filename set. -/
def groupKeys (files : List Name) : List Name :=
  (files.map stripFreq).dedup

/-- Errors of the grouping step: `badCount ps` is the `AssertionError`
("number of channels unequal to 3!") carrying the offending paths that the
sources log and re-raise; `keyIndexError k` is the `IndexError` on a key
without a double-space separator. -/
inductive GroupError
  | keyIndexError (key : Name)
  | badCount (paths : List Name)
deriving DecidableEq

/-- Process a list of keys in order: match each key's group and assert that it
has exactly 3 members, stopping at the first failure. -/
def checkGroupsAux (files : List Name) : List Name → Except GroupError (List (Name × List Name))
  | [] => .ok []
  | k :: ks =>
    match matchGroup files k with
    | none => .error (.keyIndexError k)
    | some ps =>
      if ps.length = 3 then
        (checkGroupsAux files ks).map (fun l => (k, ps) :: l)
      else .error (.badCount ps)

/-- The grouping-and-validation step shared by `IQA_Thermo.Asses`,
`Preprocess_Thermo.load_images` and `Enrichment_Thermo.load_images`. -/
def checkGroups (files : List Name) : Except GroupError (List (Name × List Name)) :=
  checkGroupsAux files (groupKeys files)

/-!
## Well-formed filename sets

The spec's filename contract is `<prefix> <digits>[_digits]Hz <suffix>.<ext>`:
the frequency token is flanked by single spaces, so the ungrouped key is
`prefix ++ "  " ++ suffix`.  A well-formed set consists of such names, three per
composite group — one for each of the three frequencies `f1, f2, f3`.
-/

/-- The ungrouped key of a composite group: prefix and suffix joined by the
double-space separator. -/
def keyOf (p s : Name) : Name := p ++ ' ' :: ' ' :: s

/-- A filename of the contract shape `<prefix> <f>Hz <suffix>`. -/
def mkFName (p f s : Name) : Name := p ++ ' ' :: (f ++ 'H' :: 'z' :: ' ' :: s)

/-- The three member filenames of the composite group `g = (prefix, suffix)`. -/
def tripleOf (f1 f2 f3 : Name) (g : Name × Name) : List Name :=
  [mkFName g.1 f1 g.2, mkFName g.1 f2 g.2, mkFName g.1 f3 g.2]

/-- The filename set generated by a list of composite groups, each with the
three frequencies `f1, f2, f3`. -/
def wfFiles (f1 f2 f3 : Name) (G : List (Name × Name)) : List Name :=
  G.flatMap (tripleOf f1 f2 f3)

/-- Well-formedness of the generated filename set: the three frequencies are
distinct, group keys are pairwise distinct, stripping the frequency token from
each member yields exactly its group key, and each key splits on the
double-space separator into its prefix and suffix. -/
@[reducible] def WellFormed (f1 f2 f3 : Name) (G : List (Name × Name)) : Prop :=
  (f1 ≠ f2 ∧ f1 ≠ f3 ∧ f2 ≠ f3) ∧
  (G.map (fun g => keyOf g.1 g.2)).Nodup ∧
  (∀ g ∈ G, ∀ f ∈ [f1, f2, f3], stripFreq (mkFName g.1 f g.2) = keyOf g.1 g.2) ∧
  (∀ g ∈ G, splitKey (keyOf g.1 g.2) = some (g.1, g.2))

/-- The conclusion of the grouping-correctness claim: every distinct ungrouped
key selects a group of exactly 3 members, and the groups of two distinct keys
share no member. -/
@[reducible] def MatcherPartitions (files : List Name) : Prop :=
  (∀ k ∈ groupKeys files, (matchGroup files k).isSome = true ∧
    (matchedOf files k).length = 3) ∧
  (∀ k ∈ groupKeys files, ∀ k' ∈ groupKeys files, k ≠ k' →
    ∀ x ∈ matchedOf files k, x ∉ matchedOf files k')

/-- The extra hypothesis the substring-based matcher actually needs: no filename
of one group contains both the prefix and the suffix of a different group as
substrings. -/
@[reducible] def NoCrossMatch (f1 f2 f3 : Name) (G : List (Name × Name)) : Prop :=
  ∀ g ∈ G, ∀ g' ∈ G, ∀ f ∈ [f1, f2, f3],
    containsSub (mkFName g'.1 f g'.2) g.1 = true →
    containsSub (mkFName g'.1 f g'.2) g.2 = true → g' = g

/-- Counterexample groups for the grouping-correctness claim: the prefix `A` of
the first group is a substring of the prefix `AB` of the second. -/
def cexG : List (Name × Name) := [("A".toList, "B.png".toList), ("AB".toList, "B.png".toList)]

def cexF1 : Name := "1".toList
def cexF2 : Name := "0_5".toList
def cexF3 : Name := "2".toList

/-!
## Correctness of the matcher under the no-cross-match hypothesis
-/

theorem containsSub_append_left (p t : Name) : containsSub (p ++ t) p = true := by
  refine List.any_eq_true.mpr ⟨p ++ t, ?_, ?_⟩
  · exact (List.mem_tails _ _).mpr (List.suffix_refl _)
  · exact List.isPrefixOf_iff_prefix.mpr (List.prefix_append p t)

theorem containsSub_append_right (t s : Name) : containsSub (t ++ s) s = true := by
  refine List.any_eq_true.mpr ⟨s, ?_, ?_⟩
  · exact (List.mem_tails _ _).mpr (List.suffix_append t s)
  · exact List.isPrefixOf_iff_prefix.mpr (List.prefix_refl s)

theorem mkFName_eq_append_right (p f s : Name) :
    mkFName p f s = (p ++ ' ' :: f ++ ['H', 'z', ' ']) ++ s := by
  simp [mkFName]

/-- Every member of a group contains its own prefix and suffix as substrings. -/
theorem containsSub_mkFName_self (p f s : Name) :
    containsSub (mkFName p f s) p = true ∧ containsSub (mkFName p f s) s = true := by
  constructor
  · have : mkFName p f s = p ++ (' ' :: (f ++ 'H' :: 'z' :: ' ' :: s)) := rfl
    rw [this]; exact containsSub_append_left _ _
  · rw [mkFName_eq_append_right]; exact containsSub_append_right _ _

theorem filter_triple_self (f1 f2 f3 : Name) (g : Name × Name) :
    (tripleOf f1 f2 f3 g).filter
      (fun x => containsSub x g.2 && containsSub x g.1) = tripleOf f1 f2 f3 g := by
  simp [tripleOf, List.filter,
    (containsSub_mkFName_self g.1 f1 g.2).1, (containsSub_mkFName_self g.1 f1 g.2).2,
    (containsSub_mkFName_self g.1 f2 g.2).1, (containsSub_mkFName_self g.1 f2 g.2).2,
    (containsSub_mkFName_self g.1 f3 g.2).1, (containsSub_mkFName_self g.1 f3 g.2).2]

theorem filter_triple_other (f1 f2 f3 : Name) (g g' : Name × Name) (hne : ¬ g' = g)
    (hnc : ∀ f ∈ [f1, f2, f3],
      containsSub (mkFName g'.1 f g'.2) g.1 = true →
      containsSub (mkFName g'.1 f g'.2) g.2 = true → g' = g) :
    (tripleOf f1 f2 f3 g').filter
      (fun x => containsSub x g.2 && containsSub x g.1) = [] := by
  have key : ∀ f ∈ [f1, f2, f3],
      (containsSub (mkFName g'.1 f g'.2) g.2 && containsSub (mkFName g'.1 f g'.2) g.1) = false := by
    intro f hf
    by_contra hx
    rw [Bool.not_eq_false, Bool.and_eq_true] at hx
    exact hne (hnc f hf hx.2 hx.1)
  simp [tripleOf, List.filter,
    key f1 (by simp), key f2 (by simp), key f3 (by simp)]

theorem filter_wfFiles_nil (f1 f2 f3 : Name) (g : Name × Name) :
    ∀ (G : List (Name × Name)),
    (∀ g' ∈ G, ¬ g' = g) →
    (∀ g' ∈ G, ∀ f ∈ [f1, f2, f3],
      containsSub (mkFName g'.1 f g'.2) g.1 = true →
      containsSub (mkFName g'.1 f g'.2) g.2 = true → g' = g) →
    (wfFiles f1 f2 f3 G).filter
      (fun x => containsSub x g.2 && containsSub x g.1) = [] := by
  intro G
  induction G with
  | nil => intro _ _; rfl
  | cons g'' G' ih =>
    intro hne hnc
    have : wfFiles f1 f2 f3 (g'' :: G') =
        tripleOf f1 f2 f3 g'' ++ wfFiles f1 f2 f3 G' := rfl
    rw [this, List.filter_append,
      filter_triple_other f1 f2 f3 g g'' (hne g'' (by simp)) (hnc g'' (by simp)),
      ih (fun g' h => hne g' (by simp [h])) (fun g' h => hnc g' (by simp [h]))]
    rfl

theorem filter_wfFiles_eq (f1 f2 f3 : Name) (g : Name × Name) :
    ∀ (G : List (Name × Name)),
    (G.map (fun g => keyOf g.1 g.2)).Nodup →
    (∀ g' ∈ G, ∀ f ∈ [f1, f2, f3],
      containsSub (mkFName g'.1 f g'.2) g.1 = true →
      containsSub (mkFName g'.1 f g'.2) g.2 = true → g' = g) →
    g ∈ G →
    (wfFiles f1 f2 f3 G).filter
      (fun x => containsSub x g.2 && containsSub x g.1) = tripleOf f1 f2 f3 g := by
  intro G
  induction G with
  | nil => intro _ _ hg; cases hg
  | cons g'' G' ih =>
    intro hnd hnc hg
    have hsplit : wfFiles f1 f2 f3 (g'' :: G') =
        tripleOf f1 f2 f3 g'' ++ wfFiles f1 f2 f3 G' := rfl
    rw [List.map_cons, List.nodup_cons] at hnd
    rcases List.mem_cons.mp hg with hgg | hgtail
    · subst hgg
      rw [hsplit, List.filter_append, filter_triple_self]
      have htail : ∀ g' ∈ G', ¬ g' = g := by
        intro g' hmem heq
        exact hnd.1 (heq ▸ List.mem_map_of_mem (fun g => keyOf g.1 g.2) hmem)
      rw [filter_wfFiles_nil f1 f2 f3 g G' htail
        (fun g' h => hnc g' (by simp [h]))]
      simp
    · have hne : ¬ g'' = g := by
        intro heq
        exact hnd.1 (heq ▸ List.mem_map_of_mem (fun g => keyOf g.1 g.2) hgtail)
      rw [hsplit, List.filter_append,
        filter_triple_other f1 f2 f3 g g'' hne (hnc g'' (by simp)),
        ih hnd.2 (fun g' h => hnc g' (by simp [h])) hgtail]
      rfl

/-- Under well-formedness and no cross-matching, the matcher selects exactly the
three members of each group, in discovery order. -/
theorem matchGroup_wfFiles (f1 f2 f3 : Name) (G : List (Name × Name))
    (hwf : WellFormed f1 f2 f3 G) (hnc : NoCrossMatch f1 f2 f3 G)
    (g : Name × Name) (hg : g ∈ G) :
    matchGroup (wfFiles f1 f2 f3 G) (keyOf g.1 g.2) = some (tripleOf f1 f2 f3 g) := by
  obtain ⟨_, hnd, _, hsplitkey⟩ := hwf
  unfold matchGroup
  rw [hsplitkey g hg]
  simp only [Option.map_some']
  congr 1
  rw [List.filter_filter]
  exact filter_wfFiles_eq f1 f2 f3 g G hnd (fun g' hg' => hnc g hg g' hg') hg

theorem dedup_flatMap_triple {α β : Type} [DecidableEq β] (k : α → β) :
    ∀ (G : List α), (G.map k).Nodup →
    (G.flatMap (fun g => [k g, k g, k g])).dedup = G.map k := by
  intro G
  induction G with
  | nil => intro _; rfl
  | cons g G' ih =>
    intro hnd
    rw [List.map_cons, List.nodup_cons] at hnd
    have hmem : ∀ x ∈ G'.flatMap (fun g => [k g, k g, k g]), x ∈ G'.map k := by
      intro x hx
      rcases List.mem_flatMap.mp hx with ⟨a, ha, hxa⟩
      simp only [List.mem_cons, List.not_mem_nil, or_false] at hxa
      rcases hxa with h | h | h <;> exact h ▸ List.mem_map_of_mem k ha
    have hknotmem : k g ∉ G'.flatMap (fun g => [k g, k g, k g]) := by
      intro hx
      exact hnd.1 (hmem _ hx)
    have : (g :: G').flatMap (fun g => [k g, k g, k g]) =
        k g :: k g :: k g :: G'.flatMap (fun g => [k g, k g, k g]) := rfl
    rw [this,
      List.dedup_cons_of_mem (by simp),
      List.dedup_cons_of_mem (by simp),
      List.dedup_cons_of_not_mem hknotmem,
      ih hnd.2]
    rfl

/-- The distinct ungrouped keys of a well-formed set are exactly the group keys. -/
theorem groupKeys_wfFiles (f1 f2 f3 : Name) (G : List (Name × Name))
    (hwf : WellFormed f1 f2 f3 G) :
    groupKeys (wfFiles f1 f2 f3 G) = G.map (fun g => keyOf g.1 g.2) := by
  obtain ⟨_, hnd, hstrip, _⟩ := hwf
  unfold groupKeys wfFiles
  rw [List.map_flatMap]
  have : ∀ g ∈ G, (tripleOf f1 f2 f3 g).map stripFreq =
      [keyOf g.1 g.2, keyOf g.1 g.2, keyOf g.1 g.2] := by
    intro g hg
    simp only [tripleOf, List.map_cons, List.map_nil]
    rw [hstrip g hg f1 (by simp), hstrip g hg f2 (by simp), hstrip g hg f3 (by simp)]
  rw [List.flatMap_congr this]
  exact dedup_flatMap_triple (fun g => keyOf g.1 g.2) G hnd

/-- C1 (counterexample).  The claim "for every well-formed filename set in which
each composite group has exactly the three frequency tokens {f1,f2,f3}, the
Frequency-Group Matcher partitions the set into groups of exactly 3 members, and
no two distinct well-formed groups share a member" fails on the well-formed
two-group set with prefixes `A` and `AB` and common suffix `B.png`: since `A` is
a substring of every filename of the `AB` group, the key `A  B.png` matches all
6 filenames, so the matcher produces neither groups of exactly 3 nor disjoint
groups. -/
theorem claim_C1_counterexample :
    WellFormed cexF1 cexF2 cexF3 cexG ∧
    ¬ MatcherPartitions (wfFiles cexF1 cexF2 cexF3 cexG) := by
  decide

/-- C1 (amended).  For every well-formed filename set in which each composite
group has exactly the three frequency tokens {f1,f2,f3} and, additionally, no
filename of one group contains both the prefix and the suffix of a different
group as substrings, the Frequency-Group Matcher partitions the set into groups
of exactly 3 members, no two distinct well-formed groups share a member, and
each key selects precisely its own group's three filenames in discovery
order. -/
theorem claim_C1_grouping_correct (f1 f2 f3 : Name) (G : List (Name × Name))
    (hwf : WellFormed f1 f2 f3 G) (hnc : NoCrossMatch f1 f2 f3 G) :
    MatcherPartitions (wfFiles f1 f2 f3 G) ∧
    ∀ g ∈ G, matchGroup (wfFiles f1 f2 f3 G) (keyOf g.1 g.2) =
      some (tripleOf f1 f2 f3 g) := by
  have hkeys := groupKeys_wfFiles f1 f2 f3 G hwf
  have hmatch := matchGroup_wfFiles f1 f2 f3 G hwf hnc
  have hmem : ∀ k ∈ groupKeys (wfFiles f1 f2 f3 G),
      ∃ g ∈ G, k = keyOf g.1 g.2 := by
    intro k hk
    rw [hkeys] at hk
    rcases List.mem_map.mp hk with ⟨g, hg, hkg⟩
    exact ⟨g, hg, hkg.symm⟩
  have hmatched : ∀ g ∈ G, matchedOf (wfFiles f1 f2 f3 G) (keyOf g.1 g.2) =
      tripleOf f1 f2 f3 g := by
    intro g hg
    unfold matchedOf
    rw [hmatch g hg]
    rfl
  have hstrip := hwf.2.2.1
  refine ⟨⟨?_, ?_⟩, hmatch⟩
  · intro k hk
    rcases hmem k hk with ⟨g, hg, rfl⟩
    refine ⟨by rw [hmatch g hg]; rfl, ?_⟩
    rw [hmatched g hg]
    rfl
  · intro k hk k' hk' hne x hx hx'
    rcases hmem k hk with ⟨g, hg, rfl⟩
    rcases hmem k' hk' with ⟨g', hg', rfl⟩
    rw [hmatched g hg] at hx
    rw [hmatched g' hg'] at hx'
    have hxg : stripFreq x = keyOf g.1 g.2 := by
      simp only [tripleOf, List.mem_cons, List.not_mem_nil, or_false] at hx
      rcases hx with h | h | h
      · exact h ▸ hstrip g hg f1 (by simp)
      · exact h ▸ hstrip g hg f2 (by simp)
      · exact h ▸ hstrip g hg f3 (by simp)
    have hxg' : stripFreq x = keyOf g'.1 g'.2 := by
      simp only [tripleOf, List.mem_cons, List.not_mem_nil, or_false] at hx'
      rcases hx' with h | h | h
      · exact h ▸ hstrip g' hg' f1 (by simp)
      · exact h ▸ hstrip g' hg' f2 (by simp)
      · exact h ▸ hstrip g' hg' f3 (by simp)
    exact hne (hxg ▸ hxg')

/-- Well-formed two-group witness set for the amended grouping claim: no
fragment of one group occurs in the filenames of the other. -/
def wexG : List (Name × Name) :=
  [("Alpha".toList, "B.png".toList), ("Gamma".toList, "D.png".toList)]

theorem claim_C1_grouping_correct_witness :
    WellFormed cexF1 cexF2 cexF3 wexG ∧ NoCrossMatch cexF1 cexF2 cexF3 wexG ∧
    MatcherPartitions (wfFiles cexF1 cexF2 cexF3 wexG) :=
  ⟨by decide, by decide,
    (claim_C1_grouping_correct cexF1 cexF2 cexF3 wexG (by decide) (by decide)).1⟩

/-!
## C2: the ≠ 3 member count is a fatal error naming the offending paths
-/

theorem checkGroupsAux_cons (files : List Name) (k : Name) (ks : List Name) :
    checkGroupsAux files (k :: ks) =
      match matchGroup files k with
      | none => .error (.keyIndexError k)
      | some ps =>
        if ps.length = 3 then (checkGroupsAux files ks).map (fun l => (k, ps) :: l)
        else .error (.badCount ps) := rfl

theorem checkGroupsAux_spec (files : List Name) : ∀ ks : List Name,
    (∀ k ∈ ks, (splitKey k).isSome = true) →
    ((∃ k ∈ ks, (matchedOf files k).length ≠ 3) →
      ∃ ps, checkGroupsAux files ks = .error (.badCount ps) ∧
        ∃ k ∈ ks, matchGroup files k = some ps ∧ ps.length ≠ 3) ∧
    (∀ gs, checkGroupsAux files ks = .ok gs →
      gs = ks.map (fun k => (k, matchedOf files k)) ∧
      ∀ e ∈ gs, (e.2 : List Name).length = 3) := by
  intro ks
  induction ks with
  | nil =>
    intro _
    refine ⟨fun h => absurd h (by simp), fun gs hgs => ?_⟩
    cases hgs
    exact ⟨rfl, by simp⟩
  | cons k ks' ih =>
    intro hsome
    have hk : (splitKey k).isSome = true := hsome k (by simp)
    have hmg : ∃ ps, matchGroup files k = some ps := by
      unfold matchGroup
      cases hsk : splitKey k with
      | none => rw [hsk] at hk; cases hk
      | some v => exact ⟨_, rfl⟩
    rcases hmg with ⟨ps, hps⟩
    have hm : matchedOf files k = ps := by
      unfold matchedOf
      rw [hps]
      rfl
    have ihs := ih (fun k' h => hsome k' (by simp [h]))
    by_cases h3 : ps.length = 3
    · have haux : checkGroupsAux files (k :: ks') =
          (checkGroupsAux files ks').map (fun l => (k, ps) :: l) := by
        rw [checkGroupsAux_cons, hps]
        simp only [h3, if_true]
      constructor
      · intro hbad
        rcases hbad with ⟨k0, hk0, hne0⟩
        have hk0' : k0 ∈ ks' := by
          rcases List.mem_cons.mp hk0 with h | h
          · subst h; rw [hm] at hne0; exact absurd h3 hne0
          · exact h
        rcases ihs.1 ⟨k0, hk0', hne0⟩ with ⟨ps', herr, k1, hk1, hps1, hne1⟩
        refine ⟨ps', ?_, k1, by simp [hk1], hps1, hne1⟩
        rw [haux, herr]
        rfl
      · intro gs hgs
        rw [haux] at hgs
        cases haux' : checkGroupsAux files ks' with
        | error e => rw [haux'] at hgs; cases hgs
        | ok gs' =>
          rw [haux'] at hgs
          cases hgs
          rcases ihs.2 gs' haux' with ⟨hgs', hlen'⟩
          constructor
          · rw [List.map_cons, ← hgs', hm]
          · intro e he
            rcases List.mem_cons.mp he with h | h
            · subst h; exact h3
            · exact hlen' e h
    · have haux : checkGroupsAux files (k :: ks') = .error (.badCount ps) := by
        rw [checkGroupsAux_cons, hps]
        simp only [if_neg h3]
      refine ⟨fun _ => ⟨ps, haux, k, by simp, hps, h3⟩, fun gs hgs => ?_⟩
      rw [haux] at hgs
      cases hgs

/-- C2.  If every ungrouped key splits on the double-space separator, then:
whenever some composite group's filtered member count is not 3, the grouping
step fails with the data-integrity `AssertionError` carrying exactly the
offending paths of such a group (whose count is ≠ 3, so a group of exactly 3 is
never the one reported); and whenever the step succeeds, every group is present
with its full, unpadded 3-member path list — nothing is dropped or padded. -/
theorem claim_C2_bad_count_fatal (files : List Name)
    (hsplit : ∀ k ∈ groupKeys files, (splitKey k).isSome = true) :
    ((∃ k ∈ groupKeys files, (matchedOf files k).length ≠ 3) →
      ∃ ps, checkGroups files = .error (.badCount ps) ∧
        ∃ k ∈ groupKeys files, matchGroup files k = some ps ∧ ps.length ≠ 3) ∧
    (∀ gs, checkGroups files = .ok gs →
      gs = (groupKeys files).map (fun k => (k, matchedOf files k)) ∧
      ∀ e ∈ gs, (e.2 : List Name).length = 3) :=
  checkGroupsAux_spec files (groupKeys files) hsplit

/-- Two-member group input for the C2 witness: the key `X  Y.png` of
`["X 1Hz Y.png", "X 2Hz Y.png"]` matches only 2 filenames, and the grouping
step reports exactly those two paths. -/
def c2Files : List Name := ["X 1Hz Y.png".toList, "X 2Hz Y.png".toList]

theorem claim_C2_bad_count_fatal_witness :
    (∀ k ∈ groupKeys c2Files, (splitKey k).isSome = true) ∧
    (∃ k ∈ groupKeys c2Files, (matchedOf c2Files k).length ≠ 3) ∧
    (∃ ps, checkGroups c2Files = .error (.badCount ps) ∧
      ∃ k ∈ groupKeys c2Files, matchGroup c2Files k = some ps ∧ ps.length ≠ 3) :=
  ⟨by decide, by decide, (claim_C2_bad_count_fatal c2Files (by decide)).1 (by decide)⟩

/-!
## C3: the IQA quality gate

`IQA_Thermo.Asses` builds one `composite_dict` per group with the BRISQUE
scores, the per-image strict-threshold booleans and the conjunctive
`Composite_pass`; `save_images` copies only the members of fully passing
composites.  The BRISQUE scorer itself is an external library call, modelled as
a score function `Name → ℚ`.
-/

/-- The `composite_dict` record built by `IQA_Thermo.Asses`. -/
structure CompositeDict where
  composite_name : Name
  image_paths : List Name
  scores : List ℚ
  passed : List Bool
  compositePass : Bool
deriving DecidableEq

/-- One entry of `composite_ls`: scores via `brisq.get_score`, per-image
`True if score < self.brisque_threshold else False`, and
`Composite_pass = all(passed == True ...)`. -/
def mkCompositeDict (score : Name → ℚ) (thr : ℚ) (k : Name) (ps : List Name) :
    CompositeDict :=
  { composite_name := k
    image_paths := ps
    scores := ps.map score
    passed := (ps.map score).map (fun sc => if sc < thr then true else false)
    compositePass := ((ps.map score).map (fun sc => if sc < thr then true else false)).all
      (fun b => b == true) }

/-- `IQA_Thermo.Asses`: group the images, assert 3 members per group, score
each member and record the pass/fail gate. -/
def assesModel (score : Name → ℚ) (thr : ℚ) (files : List Name) :
    Except GroupError (List CompositeDict) :=
  (checkGroups files).map (fun gs => gs.map (fun e => mkCompositeDict score thr e.1 e.2))

/-- The source paths copied into `2.IQA_images` by `IQA_Thermo.save_images`:
exactly the members of composites with `Composite_pass == True`. -/
def iqaSavedSources (ls : List CompositeDict) : List Name :=
  (ls.filter (fun d => d.compositePass)).flatMap (fun d => d.image_paths)

theorem checkGroupsAux_ok_length (files : List Name) : ∀ (ks : List Name)
    (gs : List (Name × List Name)), checkGroupsAux files ks = .ok gs →
    ∀ e ∈ gs, (e.2 : List Name).length = 3 := by
  intro ks
  induction ks with
  | nil =>
    intro gs hgs e he
    cases hgs
    cases he
  | cons k ks' ih =>
    intro gs hgs e he
    rw [checkGroupsAux_cons] at hgs
    cases hps : matchGroup files k with
    | none => rw [hps] at hgs; cases hgs
    | some ps =>
      rw [hps] at hgs
      by_cases h3 : ps.length = 3
      · simp only [h3, if_true] at hgs
        cases haux : checkGroupsAux files ks' with
        | error e' => rw [haux] at hgs; cases hgs
        | ok gs' =>
          rw [haux] at hgs
          cases hgs
          rcases List.mem_cons.mp he with h | h
          · subst h; exact h3
          · exact ih gs' haux e h
      · simp only [if_neg h3] at hgs
        cases hgs

/-- C3.  For every `composite_dict` produced by a successful `Asses` run: the
`passed` booleans are the strict comparisons `score < threshold`,
`Composite_pass` is the conjunction of the three `passed` booleans, every group
has exactly 3 members, and when any score is at or above the threshold no
member of that group is among the paths `save_images` copies into
`2.IQA_images` (assuming, as for any well-formed run, that distinct composites
share no path). -/
theorem claim_C3_quality_gate (score : Name → ℚ) (thr : ℚ) (files : List Name)
    (ls : List CompositeDict) (h : assesModel score thr files = .ok ls)
    (hdisj : ∀ d1 ∈ ls, ∀ d2 ∈ ls, ∀ p : Name,
      p ∈ d1.image_paths → p ∈ d2.image_paths → d1 = d2)
    (d : CompositeDict) (hd : d ∈ ls) :
    d.scores = d.image_paths.map score ∧
    d.passed = d.scores.map (fun sc => if sc < thr then true else false) ∧
    d.compositePass = d.passed.all id ∧
    d.image_paths.length = 3 ∧
    ((∃ sc ∈ d.scores, thr ≤ sc) → ∀ p ∈ d.image_paths, p ∉ iqaSavedSources ls) := by
  have hgs : ∃ gs, checkGroups files = .ok gs ∧
      ls = gs.map (fun e => mkCompositeDict score thr e.1 e.2) := by
    unfold assesModel at h
    cases hc : checkGroups files with
    | error e => rw [hc] at h; cases h
    | ok gs =>
      rw [hc] at h
      cases h
      exact ⟨gs, rfl, rfl⟩
  rcases hgs with ⟨gs, hok, rfl⟩
  rcases List.mem_map.mp hd with ⟨e, he, rfl⟩
  have hlen3 : (e.2 : List Name).length = 3 :=
    checkGroupsAux_ok_length files (groupKeys files) gs hok e he
  refine ⟨rfl, rfl, ?_, hlen3, ?_⟩
  · simp only [mkCompositeDict]
    congr 1
    funext b
    cases b <;> rfl
  · intro hfail p hp hsaved
    have hnotpass : (mkCompositeDict score thr e.1 e.2).compositePass = false := by
      rcases hfail with ⟨sc, hsc, hthr⟩
      have hscmem : (if sc < thr then true else false) ∈
          ((e.2 : List Name).map score).map (fun sc => if sc < thr then true else false) := by
        simp only [mkCompositeDict] at hsc
        exact List.mem_map_of_mem _ hsc
      simp only [mkCompositeDict]
      refine List.all_eq_false.mpr ⟨_, hscmem, ?_⟩
      rw [if_neg (not_lt.mpr hthr)]
      decide
    rcases List.mem_flatMap.mp hsaved with ⟨d', hd', hp'⟩
    rcases List.mem_filter.mp hd' with ⟨hd'ls, hd'pass⟩
    have heq := hdisj _ hd d' hd'ls p hp hp'
    rw [← heq] at hd'pass
    rw [hnotpass] at hd'pass
    cases hd'pass

instance {ε α : Type} [DecidableEq ε] [DecidableEq α] : DecidableEq (Except ε α)
  | .error e, .error e' =>
    if h : e = e' then isTrue (by rw [h]) else isFalse (by intro hx; cases hx; exact h rfl)
  | .error _, .ok _ => isFalse (by intro hx; cases hx)
  | .ok _, .error _ => isFalse (by intro hx; cases hx)
  | .ok a, .ok b =>
    if h : a = b then isTrue (by rw [h]) else isFalse (by intro hx; cases hx; exact h rfl)

/-- Single failing group for the C3 witness: the first member scores 80 ≥ 70,
so the whole composite is gated out and nothing is copied. -/
def c3Files : List Name :=
  ["X 1Hz Y.png".toList, "X 2Hz Y.png".toList, "X 3Hz Y.png".toList]

def c3Score : Name → ℚ := fun p => if p = "X 1Hz Y.png".toList then 80 else 10

def c3LS : List CompositeDict :=
  [mkCompositeDict c3Score 70 ("X  Y.png".toList) c3Files]

theorem claim_C3_quality_gate_witness :
    assesModel c3Score 70 c3Files = .ok c3LS ∧
    (∀ d1 ∈ c3LS, ∀ d2 ∈ c3LS, ∀ p : Name,
      p ∈ d1.image_paths → p ∈ d2.image_paths → d1 = d2) ∧
    ((mkCompositeDict c3Score 70 ("X  Y.png".toList) c3Files).scores =
      (mkCompositeDict c3Score 70 ("X  Y.png".toList) c3Files).image_paths.map c3Score ∧
    (mkCompositeDict c3Score 70 ("X  Y.png".toList) c3Files).passed =
      (mkCompositeDict c3Score 70 ("X  Y.png".toList) c3Files).scores.map
        (fun sc => if sc < 70 then true else false) ∧
    (mkCompositeDict c3Score 70 ("X  Y.png".toList) c3Files).compositePass =
      (mkCompositeDict c3Score 70 ("X  Y.png".toList) c3Files).passed.all id ∧
    (mkCompositeDict c3Score 70 ("X  Y.png".toList) c3Files).image_paths.length = 3 ∧
    ((∃ sc ∈ (mkCompositeDict c3Score 70 ("X  Y.png".toList) c3Files).scores, (70:ℚ) ≤ sc) →
      ∀ p ∈ (mkCompositeDict c3Score 70 ("X  Y.png".toList) c3Files).image_paths,
        p ∉ iqaSavedSources c3LS)) :=
  ⟨by decide, by decide,
    claim_C3_quality_gate c3Score 70 c3Files c3LS (by decide) (by decide)
      (mkCompositeDict c3Score 70 ("X  Y.png".toList) c3Files) (by decide)⟩

/-!
## C4: the Enrichment merge

`Enrichment_Thermo.enrich` looks the three matched paths of a composite group
up in `images_dict` (in discovery order) and calls `Image.merge('RGB', images)`,
which lays the three single-channel bands into the three channels of one RGB
image of the common size.
-/

/-- A single-channel image: width, height and row-major pixel data. -/
structure GrayImage where
  w : Nat
  h : Nat
  data : List Nat
deriving DecidableEq

/-- A 3-channel image: width, height and row-major (r, g, b) pixel data. -/
structure RGBImage where
  w : Nat
  h : Nat
  data : List (Nat × Nat × Nat)
deriving DecidableEq

/-- `PIL.Image.merge('RGB', [a, b, c])`: requires the three bands to share one
size and produces the 3-channel image whose channel k holds band k's pixels,
unchanged. -/
def imageMergeRGB (a b c : GrayImage) : Option RGBImage :=
  if a.w = b.w ∧ a.h = b.h ∧ a.w = c.w ∧ a.h = c.h then
    some ⟨a.w, a.h, a.data.zip (b.data.zip c.data)⟩
  else none

/-- Channel 0 (R) of a 3-channel image. -/
def channelR (m : RGBImage) : GrayImage := ⟨m.w, m.h, m.data.map (fun t => t.1)⟩

/-- Channel 1 (G) of a 3-channel image. -/
def channelG (m : RGBImage) : GrayImage := ⟨m.w, m.h, m.data.map (fun t => t.2.1)⟩

/-- Channel 2 (B) of a 3-channel image. -/
def channelB (m : RGBImage) : GrayImage := ⟨m.w, m.h, m.data.map (fun t => t.2.2)⟩

/-- `Enrichment_Thermo.enrich` for one composite group:
`images = [self.images_dict.get(key) for key in corresponding_paths]` followed
by `Image.merge('RGB', images)`. -/
def enrichGroup (imagesDict : Name → Option GrayImage) (paths : List Name) :
    Option RGBImage :=
  match paths.map imagesDict with
  | [some a, some b, some c] => imageMergeRGB a b c
  | _ => none

/-- C4.  For every composite group of 3 single-channel images of identical size
W×H (with well-sized pixel buffers), the Enrichment merge produces exactly one
3-channel W×H image whose channel k equals source image k — the k-th of the
matched paths in discovery order — exactly, unchanged. -/
theorem claim_C4_merge_roundtrip (imagesDict : Name → Option GrayImage)
    (p0 p1 p2 : Name) (a b c : GrayImage)
    (h0 : imagesDict p0 = some a) (h1 : imagesDict p1 = some b)
    (h2 : imagesDict p2 = some c)
    (hwb : b.w = a.w) (hhb : b.h = a.h) (hwc : c.w = a.w) (hhc : c.h = a.h)
    (hda : a.data.length = a.w * a.h) (hdb : b.data.length = b.w * b.h)
    (hdc : c.data.length = c.w * c.h) :
    ∃ m : RGBImage, enrichGroup imagesDict [p0, p1, p2] = some m ∧
      m.w = a.w ∧ m.h = a.h ∧ m.data.length = a.w * a.h ∧
      channelR m = a ∧ channelG m = b ∧ channelB m = c := by
  have hla : a.data.length = a.w * a.h := hda
  have hlb : b.data.length = a.w * a.h := by rw [hdb, hwb, hhb]
  have hlc : c.data.length = a.w * a.h := by rw [hdc, hwc, hhc]
  have hmerge : imageMergeRGB a b c =
      some ⟨a.w, a.h, a.data.zip (b.data.zip c.data)⟩ := by
    unfold imageMergeRGB
    rw [if_pos ⟨hwb.symm, hhb.symm, hwc.symm, hhc.symm⟩]
  have henrich : enrichGroup imagesDict [p0, p1, p2] =
      some ⟨a.w, a.h, a.data.zip (b.data.zip c.data)⟩ := by
    unfold enrichGroup
    rw [List.map_cons, List.map_cons, List.map_cons, List.map_nil, h0, h1, h2]
    exact hmerge
  have hlbc : (b.data.zip c.data).length = a.w * a.h := by
    rw [List.length_zip, hlb, hlc, Nat.min_self]
  refine ⟨_, henrich, rfl, rfl, ?_, ?_, ?_, ?_⟩
  · show (a.data.zip (b.data.zip c.data)).length = a.w * a.h
    rw [List.length_zip, hla, hlbc, Nat.min_self]
  · show (⟨a.w, a.h, (a.data.zip (b.data.zip c.data)).map (fun t => t.1)⟩ : GrayImage) = a
    have hdata : (a.data.zip (b.data.zip c.data)).map (fun t => t.1) = a.data :=
      List.map_fst_zip _ _ (le_of_eq (by rw [hla, hlbc]))
    rw [hdata]
  · show (⟨a.w, a.h, (a.data.zip (b.data.zip c.data)).map (fun t => t.2.1)⟩ : GrayImage) = b
    cases b with
    | mk bw bh bd =>
      simp only [GrayImage.mk.injEq]
      refine ⟨hwb.symm, hhb.symm, ?_⟩
      have hsnd : (a.data.zip (bd.zip c.data)).map (fun t => t.2) = bd.zip c.data :=
        List.map_snd_zip _ _ (by simp_all)
      calc (a.data.zip (bd.zip c.data)).map (fun t => t.2.1)
          = ((a.data.zip (bd.zip c.data)).map (fun t => t.2)).map (fun t => t.1) := by
            rw [List.map_map]; rfl
        _ = (bd.zip c.data).map (fun t => t.1) := by rw [hsnd]
        _ = bd := List.map_fst_zip _ _ (by simp_all)
  · show (⟨a.w, a.h, (a.data.zip (b.data.zip c.data)).map (fun t => t.2.2)⟩ : GrayImage) = c
    cases c with
    | mk cw ch cd =>
      simp only [GrayImage.mk.injEq]
      refine ⟨hwc.symm, hhc.symm, ?_⟩
      have hsnd : (a.data.zip (b.data.zip cd)).map (fun t => t.2) = b.data.zip cd :=
        List.map_snd_zip _ _ (by simp_all)
      calc (a.data.zip (b.data.zip cd)).map (fun t => t.2.2)
          = ((a.data.zip (b.data.zip cd)).map (fun t => t.2)).map (fun t => t.2) := by
            rw [List.map_map]; rfl
        _ = (b.data.zip cd).map (fun t => t.2) := by rw [hsnd]
        _ = cd := List.map_snd_zip _ _ (by simp_all)

/-- Concrete 2×1 images for the C4 witness. -/
def c4Dict : Name → Option GrayImage := fun p =>
  if p = "P 1Hz S.png".toList then some ⟨2, 1, [10, 11]⟩
  else if p = "P 2Hz S.png".toList then some ⟨2, 1, [20, 21]⟩
  else if p = "P 3Hz S.png".toList then some ⟨2, 1, [30, 31]⟩
  else none

theorem claim_C4_merge_roundtrip_witness :
    c4Dict "P 1Hz S.png".toList = some ⟨2, 1, [10, 11]⟩ ∧
    (∃ m : RGBImage, enrichGroup c4Dict
        ["P 1Hz S.png".toList, "P 2Hz S.png".toList, "P 3Hz S.png".toList] = some m ∧
      m.w = 2 ∧ m.h = 1 ∧ m.data.length = 2 * 1 ∧
      channelR m = ⟨2, 1, [10, 11]⟩ ∧ channelG m = ⟨2, 1, [20, 21]⟩ ∧
      channelB m = ⟨2, 1, [30, 31]⟩) :=
  ⟨by decide,
    claim_C4_merge_roundtrip c4Dict _ _ _ ⟨2, 1, [10, 11]⟩ ⟨2, 1, [20, 21]⟩
      ⟨2, 1, [30, 31]⟩ (by decide) (by decide) (by decide) rfl rfl rfl rfl rfl rfl rfl⟩

/-!
## C5: destructive overwrite of the stage output directory

Every stage's `save_images` does: create the stage directory if absent;
otherwise `for filename in listdir(NewImageDir): remove(join(NewImageDir,
filename))`; then write each output file, overwriting files of the same name.
A directory is modelled as an association list of (filename, content) entries.
-/

/-- A stage directory: (filename, content) entries. -/
abbrev Dir := List (Name × Nat)

/-- `os.remove`: delete the entries with the given name. -/
def removeName (d : Dir) (n : Name) : Dir := d.filter (fun e => !(e.1 == n))

/-- The delete loop `for filename in listdir(NewImageDir): remove(...)`. -/
def clearDir (d : Dir) : Dir := (d.map (fun e => e.1)).foldl removeName d

/-- `copyfile(path, join(NewImageDir, basename(path)))` (or `image.save(...)`):
write one entry, overwriting any existing file of that name. -/
def writeFile (d : Dir) (e : Name × Nat) : Dir := removeName d e.1 ++ [e]

/-- One `save_images` run against an existing stage directory: clear its
contents, then write the computed outputs in order. -/
def saveImages (d : Dir) (outs : List (Name × Nat)) : Dir :=
  outs.foldl writeFile (clearDir d)

theorem foldl_removeName_nil : ∀ (names : List Name) (d : Dir),
    (∀ e ∈ d, e.1 ∈ names) → names.foldl removeName d = [] := by
  intro names
  induction names with
  | nil =>
    intro d h
    cases d with
    | nil => rfl
    | cons e es => exact absurd (h e (by simp)) (by simp)
  | cons n ns ih =>
    intro d h
    rw [List.foldl_cons]
    apply ih
    intro e he
    rcases List.mem_filter.mp he with ⟨hed, hpred⟩
    have hne : ¬ e.1 = n := by
      intro hx
      rw [hx] at hpred
      simp at hpred
    rcases List.mem_cons.mp (h e hed) with hx | hx
    · exact absurd hx hne
    · exact hx

/-- The delete loop leaves the stage directory empty. -/
theorem clearDir_eq_nil (d : Dir) : clearDir d = [] := by
  unfold clearDir
  exact foldl_removeName_nil (d.map (fun e => e.1)) d
    (fun e he => List.mem_map_of_mem _ he)

theorem saveImages_eq_of_clear (d : Dir) (outs : List (Name × Nat)) :
    saveImages d outs = outs.foldl writeFile [] := by
  unfold saveImages
  rw [clearDir_eq_nil]

theorem foldl_writeFile_names : ∀ (outs : List (Name × Nat)) (acc : Dir),
    ∀ e ∈ outs.foldl writeFile acc,
      e.1 ∈ acc.map (fun o => o.1) ∨ e.1 ∈ outs.map (fun o => o.1) := by
  intro outs
  induction outs with
  | nil =>
    intro acc e he
    exact Or.inl (List.mem_map_of_mem _ he)
  | cons o os ih =>
    intro acc e he
    rw [List.foldl_cons] at he
    rcases ih (writeFile acc o) e he with hx | hx
    · unfold writeFile at hx
      rw [List.map_append] at hx
      rcases List.mem_append.mp hx with hy | hy
      · rcases List.mem_map.mp hy with ⟨e', he', hee⟩
        exact Or.inl (hee ▸ List.mem_map_of_mem _ (List.mem_of_mem_filter he'))
      · simp only [List.map_cons, List.map_nil, List.mem_cons] at hy
        rcases hy with hy | hy
        · exact Or.inr (by simp [hy])
        · cases hy
    · exact Or.inr (by simp [hx])

theorem foldl_writeFile_mem_mono : ∀ (outs : List (Name × Nat)) (acc : Dir) (n : Name),
    n ∈ acc.map (fun o => o.1) → n ∈ (outs.foldl writeFile acc).map (fun o => o.1) := by
  intro outs
  induction outs with
  | nil => intro acc n h; exact h
  | cons o os ih =>
    intro acc n h
    rw [List.foldl_cons]
    apply ih
    unfold writeFile
    rw [List.map_append, List.mem_append]
    by_cases hn : n = o.1
    · exact Or.inr (by simp [hn])
    · refine Or.inl ?_
      rcases List.mem_map.mp h with ⟨e, he, hee⟩
      have hne : ¬ e.1 = o.1 := by rw [hee]; exact hn
      rw [← hee]
      apply List.mem_map_of_mem
      unfold removeName
      refine List.mem_filter.mpr ⟨he, ?_⟩
      simp [hne]

theorem foldl_writeFile_mem_out : ∀ (outs : List (Name × Nat)) (acc : Dir),
    ∀ o ∈ outs, (o.1 : Name) ∈ (outs.foldl writeFile acc).map (fun e => e.1) := by
  intro outs
  induction outs with
  | nil => intro acc o ho; cases ho
  | cons o' os ih =>
    intro acc o ho
    rw [List.foldl_cons]
    rcases List.mem_cons.mp ho with h | h
    · subst h
      apply foldl_writeFile_mem_mono
      unfold writeFile
      rw [List.map_append]
      simp
    · exact ih (writeFile acc o') o h

/-- C5.  `save_images` fully replaces the stage directory: running it twice
with different input sets leaves exactly the second run's files (the result is
the same whatever the directory previously held), every resulting filename
comes from the current outputs, and every current output filename is present. -/
theorem claim_C5_destructive_overwrite (d d' : Dir) (o1 o2 : List (Name × Nat)) :
    saveImages (saveImages d o1) o2 = saveImages d' o2 ∧
    (∀ e ∈ saveImages d o2, e.1 ∈ o2.map (fun o => o.1)) ∧
    (∀ o ∈ o2, (o.1 : Name) ∈ (saveImages d o2).map (fun e => e.1)) := by
  refine ⟨?_, ?_, ?_⟩
  · rw [saveImages_eq_of_clear, saveImages_eq_of_clear]
  · intro e he
    rw [saveImages_eq_of_clear] at he
    rcases foldl_writeFile_names o2 [] e he with hx | hx
    · cases hx
    · exact hx
  · intro o ho
    exact foldl_writeFile_mem_out o2 (clearDir d) o ho


def c5Dir : Dir := [("old.png".toList, 1)]
def c5Out1 : List (Name × Nat) := [("a.png".toList, 2)]
def c5Out2 : List (Name × Nat) := [("b.png".toList, 3)]

theorem claim_C5_destructive_overwrite_witness :
    saveImages (saveImages c5Dir c5Out1) c5Out2 = saveImages [] c5Out2 ∧
    (∀ e ∈ saveImages c5Dir c5Out2, e.1 ∈ c5Out2.map (fun o => o.1)) ∧
    (∀ o ∈ c5Out2, (o.1 : Name) ∈ (saveImages c5Dir c5Out2).map (fun e => e.1)) :=
  claim_C5_destructive_overwrite c5Dir [] c5Out1 c5Out2

/-!
## C6: Preprocess step 3 — intensity rescaling

`Preprocess_step3` computes `m = arr.mean()`, `sd = arr.std()` and
`ima = np.interp(arr, (m - sd*2, m + sd*2), (-0, +255))`.  Pixels are modelled
as rationals.  `arr.std()` is the (generally irrational) square root of the
mean squared deviation, so it enters the model as a parameter `sd` constrained
by `sd * sd = pixVar a` and `0 ≤ sd` in the theorems.
-/

/-- `arr.mean()`: the mean of the pixel values. -/
def pixMean (a : List ℚ) : ℚ := a.sum / a.length

/-- `arr.std() ** 2`: the mean squared deviation of the pixel values. -/
def pixVar (a : List ℚ) : ℚ :=
  ((a.map (fun x => (x - pixMean a) * (x - pixMean a))).sum) / a.length

/-- `np.interp(x, [x0, x1], [y0, y1])` for a two-point table, following numpy's
branch order: values at or beyond the right endpoint give `y1`, values strictly
below the left endpoint give `y0`, and interior values are linearly
interpolated.  (With a degenerate table `x0 = x1`, the first branch applies —
no division is performed.) -/
def npInterp2 (x0 x1 y0 y1 x : ℚ) : ℚ :=
  if x1 ≤ x then y1
  else if x < x0 then y0
  else y0 + (x - x0) * (y1 - y0) / (x1 - x0)

/-- `Preprocess_Thermo.Preprocess_step3` on one image:
`np.interp(arr, (m - sd*2, m + sd*2), (-0, +255))`. -/
def step3Image (sd : ℚ) (a : List ℚ) : List ℚ :=
  a.map (npInterp2 (pixMean a - sd * 2) (pixMean a + sd * 2) 0 255)

theorem pixMean_replicate (n : Nat) (c : ℚ) (hn : n ≠ 0) :
    pixMean (List.replicate n c) = c := by
  unfold pixMean
  rw [List.sum_replicate, List.length_replicate, nsmul_eq_mul]
  have : (n : ℚ) ≠ 0 := Nat.cast_ne_zero.mpr hn
  field_simp

theorem pixVar_replicate (n : Nat) (c : ℚ) (hn : n ≠ 0) :
    pixVar (List.replicate n c) = 0 := by
  unfold pixVar
  rw [pixMean_replicate n c hn, List.map_replicate]
  simp

/-- C6.  Preprocess step 3 maps the range [mean − 2·std, mean + 2·std] linearly
onto [0, 255]: values at or above the upper bound saturate at 255, values below
the lower bound saturate at 0, interior values are mapped linearly (the lower
endpoint mapping to 0 and the upper to 255), and for a constant-valued image
(std = 0) every output pixel is the single constant 255 — numpy's right-endpoint
branch applies, so no division by zero occurs. -/
theorem claim_C6_rescale_step3 (a : List ℚ) (sd : ℚ)
    (hsd : 0 ≤ sd) (hvar : sd * sd = pixVar a) (hne : a ≠ []) :
    (∀ x, pixMean a + sd * 2 ≤ x →
      npInterp2 (pixMean a - sd * 2) (pixMean a + sd * 2) 0 255 x = 255) ∧
    (∀ x, x < pixMean a - sd * 2 →
      npInterp2 (pixMean a - sd * 2) (pixMean a + sd * 2) 0 255 x = 0) ∧
    (0 < sd → ∀ x, pixMean a - sd * 2 ≤ x → x < pixMean a + sd * 2 →
      npInterp2 (pixMean a - sd * 2) (pixMean a + sd * 2) 0 255 x =
        (x - (pixMean a - sd * 2)) * 255 / (sd * 4)) ∧
    (0 < sd →
      npInterp2 (pixMean a - sd * 2) (pixMean a + sd * 2) 0 255
        (pixMean a - sd * 2) = 0) ∧
    step3Image sd a =
      a.map (npInterp2 (pixMean a - sd * 2) (pixMean a + sd * 2) 0 255) ∧
    (∀ c : ℚ, a = List.replicate a.length c →
      step3Image sd a = List.replicate a.length 255) := by
  refine ⟨?_, ?_, ?_, ?_, rfl, ?_⟩
  · intro x hx
    unfold npInterp2
    rw [if_pos hx]
  · intro x hx
    unfold npInterp2
    rw [if_neg (by linarith), if_pos hx]
  · intro hpos x hx1 hx2
    unfold npInterp2
    rw [if_neg (by linarith), if_neg (by linarith)]
    have hden : (pixMean a + sd * 2) - (pixMean a - sd * 2) = sd * 4 := by ring
    rw [hden]
    ring
  · intro hpos
    unfold npInterp2
    rw [if_neg (by linarith), if_neg (by linarith)]
    ring
  · intro c hc
    have hn : a.length ≠ 0 := fun hx => hne (List.length_eq_zero.mp hx)
    have hmean : pixMean (List.replicate a.length c) = c := pixMean_replicate _ c hn
    have hvar0 : pixVar a = 0 := by
      conv_lhs => rw [hc]
      exact pixVar_replicate _ c hn
    have hzero : sd = 0 := mul_self_eq_zero.mp (hvar.trans hvar0)
    subst hzero
    unfold step3Image
    conv_lhs => rw [hc]
    rw [List.map_replicate]
    congr 1
    rw [hmean]
    unfold npInterp2
    rw [if_pos (by norm_num)]

/-- Pixel array for the C6 witness: mean 1, variance 1, std 1. -/
def c6A : List ℚ := [0, 0, 2, 2]

/-- Constant pixel array for the C6 witness: std 0. -/
def c6B : List ℚ := [5, 5, 5, 5]

theorem claim_C6_rescale_step3_witness :
    (0 ≤ (1 : ℚ)) ∧ ((1 : ℚ) * 1 = pixVar c6A) ∧ c6A ≠ [] ∧
    ((∀ x, pixMean c6A + 1 * 2 ≤ x →
      npInterp2 (pixMean c6A - 1 * 2) (pixMean c6A + 1 * 2) 0 255 x = 255) ∧
    (∀ x, x < pixMean c6A - 1 * 2 →
      npInterp2 (pixMean c6A - 1 * 2) (pixMean c6A + 1 * 2) 0 255 x = 0) ∧
    ((0 : ℚ) < 1 → ∀ x, pixMean c6A - 1 * 2 ≤ x → x < pixMean c6A + 1 * 2 →
      npInterp2 (pixMean c6A - 1 * 2) (pixMean c6A + 1 * 2) 0 255 x =
        (x - (pixMean c6A - 1 * 2)) * 255 / (1 * 4)) ∧
    ((0 : ℚ) < 1 →
      npInterp2 (pixMean c6A - 1 * 2) (pixMean c6A + 1 * 2) 0 255
        (pixMean c6A - 1 * 2) = 0) ∧
    step3Image 1 c6A =
      c6A.map (npInterp2 (pixMean c6A - 1 * 2) (pixMean c6A + 1 * 2) 0 255) ∧
    (∀ c : ℚ, c6A = List.replicate c6A.length c →
      step3Image 1 c6A = List.replicate c6A.length 255)) ∧
    step3Image 0 c6B = List.replicate c6B.length 255 :=
  ⟨by norm_num, by norm_num [pixVar, pixMean, c6A], by decide,
    claim_C6_rescale_step3 c6A 1 (by norm_num)
      (by norm_num [pixVar, pixMean, c6A]) (by decide),
    (claim_C6_rescale_step3 c6B 0 le_rfl
      (by norm_num [pixVar, pixMean, c6B]) (by decide)).2.2.2.2.2 5 rfl⟩

/-!
## C7: Preprocess step 2 — IQR clipping

`Preprocess_step2` computes `Q1 = np.quantile(arr, 0.25)`,
`Q3 = np.quantile(arr, 0.75)`, `IQR = Q3 - Q1`, then (in this order)
`res[arr > Q3+IQR*1.5] = Q3+IQR*1.5` and `res[arr <= Q1-IQR*1.5] = Q1-IQR*1.5`.
`np.quantile` with the default linear method sorts the array and interpolates at
position `q * (n - 1)`.
-/

theorem getD_eq_get_of_lt (s : List ℚ) (i : Nat) (d : ℚ) (h : i < s.length) :
    s.getD i d = s.get ⟨i, h⟩ := by
  rw [List.getD_eq_getElem?_getD, List.getElem?_eq_getElem h]
  rfl

theorem getD_eq_default_of_le (s : List ℚ) (i : Nat) (d : ℚ) (h : s.length ≤ i) :
    s.getD i d = d := by
  rw [List.getD_eq_getElem?_getD, List.getElem?_eq_none h]
  rfl

theorem sorted_getD_mono (s : List ℚ) (hs : s.Sorted (· ≤ ·)) (i j : Nat)
    (hij : i ≤ j) (hj : j < s.length) : s.getD i 0 ≤ s.getD j 0 := by
  have hi : i < s.length := lt_of_le_of_lt hij hj
  rw [getD_eq_get_of_lt s i 0 hi, getD_eq_get_of_lt s j 0 hj]
  exact @List.Sorted.rel_get_of_le ℚ (· ≤ ·) _ s hs ⟨i, hi⟩ ⟨j, hj⟩ hij

/-- The interpolation index of `np.quantile`: `floor(q * (n - 1))`. -/
def quantIdx (s : List ℚ) (q : ℚ) : Nat :=
  (Int.floor (q * ((s.length : ℚ) - 1))).toNat

/-- The left interpolation node. -/
def quantLo (s : List ℚ) (q : ℚ) : ℚ := s.getD (quantIdx s q) 0

/-- The right interpolation node (the left one when out of range, which only
happens with interpolation weight 0). -/
def quantHi (s : List ℚ) (q : ℚ) : ℚ := s.getD (quantIdx s q + 1) (quantLo s q)

/-- Linear interpolation of a sorted array at position `q * (n - 1)`. -/
def quantVal (s : List ℚ) (q : ℚ) : ℚ :=
  quantLo s q +
    (q * ((s.length : ℚ) - 1) - (quantIdx s q : ℚ)) * (quantHi s q - quantLo s q)

/-- `np.quantile(arr, q)` with the default linear interpolation method. -/
def npQuantile (a : List ℚ) (q : ℚ) : ℚ :=
  quantVal (a.insertionSort (· ≤ ·)) q

theorem quantVal_mono (s : List ℚ) (hs : s.Sorted (· ≤ ·)) (hne : s ≠ [])
    (q q' : ℚ) (h0 : 0 ≤ q) (hqq : q ≤ q') (h1 : q' ≤ 1) :
    quantVal s q ≤ quantVal s q' := by
  have hn1 : 1 ≤ s.length := List.length_pos.mpr hne
  have hnQ : (0 : ℚ) ≤ (s.length : ℚ) - 1 := by
    have : (1 : ℚ) ≤ (s.length : ℚ) := by exact_mod_cast hn1
    linarith
  have h0' : 0 ≤ q' := le_trans h0 hqq
  have hpos0 : 0 ≤ q * ((s.length : ℚ) - 1) := mul_nonneg h0 hnQ
  have hpos0' : 0 ≤ q' * ((s.length : ℚ) - 1) := mul_nonneg h0' hnQ
  have hposle : q * ((s.length : ℚ) - 1) ≤ q' * ((s.length : ℚ) - 1) :=
    mul_le_mul_of_nonneg_right hqq hnQ
  have hpos1' : q' * ((s.length : ℚ) - 1) ≤ (s.length : ℚ) - 1 := by
    calc q' * ((s.length : ℚ) - 1) ≤ 1 * ((s.length : ℚ) - 1) :=
          mul_le_mul_of_nonneg_right h1 hnQ
      _ = (s.length : ℚ) - 1 := one_mul _
  have hcast : ((quantIdx s q : Nat) : ℚ) = ((Int.floor (q * ((s.length : ℚ) - 1)) : ℤ) : ℚ) := by
    unfold quantIdx
    rw [← Int.cast_natCast, Int.toNat_of_nonneg (Int.floor_nonneg.mpr hpos0)]
  have hcast' : ((quantIdx s q' : Nat) : ℚ) = ((Int.floor (q' * ((s.length : ℚ) - 1)) : ℤ) : ℚ) := by
    unfold quantIdx
    rw [← Int.cast_natCast, Int.toNat_of_nonneg (Int.floor_nonneg.mpr hpos0')]
  have hiLE : ((quantIdx s q : Nat) : ℚ) ≤ q * ((s.length : ℚ) - 1) := by
    rw [hcast]; exact Int.floor_le _
  have hiGT : q * ((s.length : ℚ) - 1) < ((quantIdx s q : Nat) : ℚ) + 1 := by
    rw [hcast]; exact Int.lt_floor_add_one _
  have hiLE' : ((quantIdx s q' : Nat) : ℚ) ≤ q' * ((s.length : ℚ) - 1) := by
    rw [hcast']; exact Int.floor_le _
  have hiGT' : q' * ((s.length : ℚ) - 1) < ((quantIdx s q' : Nat) : ℚ) + 1 := by
    rw [hcast']; exact Int.lt_floor_add_one _
  have hii' : quantIdx s q ≤ quantIdx s q' := by
    unfold quantIdx
    exact Int.toNat_le_toNat (Int.floor_mono hposle)
  have hi'n : quantIdx s q' < s.length := by
    have : ((quantIdx s q' : Nat) : ℚ) < (s.length : ℚ) := by
      calc ((quantIdx s q' : Nat) : ℚ) ≤ q' * ((s.length : ℚ) - 1) := hiLE'
        _ ≤ (s.length : ℚ) - 1 := hpos1'
        _ < (s.length : ℚ) := by linarith
    exact_mod_cast this
  have hin : quantIdx s q < s.length := lt_of_le_of_lt hii' hi'n
  have hLH : quantLo s q ≤ quantHi s q := by
    by_cases hnext : quantIdx s q + 1 < s.length
    · have hq : quantHi s q = s.getD (quantIdx s q + 1) 0 := by
        unfold quantHi
        rw [getD_eq_get_of_lt _ _ _ hnext, getD_eq_get_of_lt _ _ _ hnext]
      rw [hq]
      exact sorted_getD_mono s hs _ _ (Nat.le_succ _) hnext
    · have hq : quantHi s q = quantLo s q := by
        unfold quantHi
        exact getD_eq_default_of_le _ _ _ (Nat.le_of_not_lt hnext)
      rw [hq]
  have hLH' : quantLo s q' ≤ quantHi s q' := by
    by_cases hnext : quantIdx s q' + 1 < s.length
    · have hq : quantHi s q' = s.getD (quantIdx s q' + 1) 0 := by
        unfold quantHi
        rw [getD_eq_get_of_lt _ _ _ hnext, getD_eq_get_of_lt _ _ _ hnext]
      rw [hq]
      exact sorted_getD_mono s hs _ _ (Nat.le_succ _) hnext
    · have hq : quantHi s q' = quantLo s q' := by
        unfold quantHi
        exact getD_eq_default_of_le _ _ _ (Nat.le_of_not_lt hnext)
      rw [hq]
  rcases Nat.eq_or_lt_of_le hii' with heq | hlt
  · have hLeq : quantLo s q' = quantLo s q := by unfold quantLo; rw [← heq]
    have hHeq : quantHi s q' = quantHi s q := by
      unfold quantHi quantLo; rw [← heq]
    unfold quantVal
    rw [hLeq, hHeq, ← heq]
    nlinarith [mul_nonneg (sub_nonneg.mpr hposle) (sub_nonneg.mpr hLH)]
  · have hval_le : quantVal s q ≤ s.getD (quantIdx s q + 1) 0 := by
      have hnext : quantIdx s q + 1 < s.length := lt_of_le_of_lt hlt hi'n
      have hq : quantHi s q = s.getD (quantIdx s q + 1) 0 := by
        unfold quantHi
        rw [getD_eq_get_of_lt _ _ _ hnext, getD_eq_get_of_lt _ _ _ hnext]
      have hd : quantLo s q ≤ s.getD (quantIdx s q + 1) 0 := by rw [← hq]; exact hLH
      unfold quantVal
      rw [hq]
      nlinarith [mul_nonneg
        (by linarith : (0:ℚ) ≤ 1 - (q * ((s.length : ℚ) - 1) - ((quantIdx s q : Nat) : ℚ)))
        (sub_nonneg.mpr hd)]
    have hmid : s.getD (quantIdx s q + 1) 0 ≤ quantLo s q' := by
      unfold quantLo
      exact sorted_getD_mono s hs _ _ hlt hi'n
    have hval_ge : quantLo s q' ≤ quantVal s q' := by
      have hfr0' : 0 ≤ q' * ((s.length : ℚ) - 1) - ((quantIdx s q' : Nat) : ℚ) := by
        linarith
      unfold quantVal
      nlinarith [mul_nonneg hfr0' (sub_nonneg.mpr hLH')]
    linarith

theorem npQuantile_mono (a : List ℚ) (hne : a ≠ []) (q q' : ℚ)
    (h0 : 0 ≤ q) (hqq : q ≤ q') (h1 : q' ≤ 1) :
    npQuantile a q ≤ npQuantile a q' := by
  unfold npQuantile
  apply quantVal_mono _ (List.sorted_insertionSort _ a) _ q q' h0 hqq h1
  intro h
  apply hne
  have hl := (List.perm_insertionSort (· ≤ ·) a).length_eq
  rw [h] at hl
  exact List.length_eq_zero.mp hl.symm

/-- `Preprocess_Thermo.Preprocess_step2` per-pixel assignment, in source order:
`res[arr > Q3+IQR*1.5] = Q3+IQR*1.5` first, then the lower mask
`res[arr <= Q1-IQR*1.5] = Q1-IQR*1.5` (which therefore wins on overlap). -/
def step2Clip (lo hi x : ℚ) : ℚ := if x ≤ lo then lo else if hi < x then hi else x

/-- The lower clip bound `Q1 - IQR*1.5`. -/
def step2LoBound (a : List ℚ) : ℚ :=
  npQuantile a (1/4) - (npQuantile a (3/4) - npQuantile a (1/4)) * (3/2)

/-- The upper clip bound `Q3 + IQR*1.5`. -/
def step2HiBound (a : List ℚ) : ℚ :=
  npQuantile a (3/4) + (npQuantile a (3/4) - npQuantile a (1/4)) * (3/2)

/-- `Preprocess_Thermo.Preprocess_step2` on one image. -/
def step2Image (a : List ℚ) : List ℚ :=
  a.map (step2Clip (step2LoBound a) (step2HiBound a))

/-- C7.  Preprocess step 2 clips every pixel below `Q1 − 1.5·IQR` up to that
bound and every pixel above `Q3 + 1.5·IQR` down to that bound (quartiles
computed on the raw pixel array of that image), and leaves every pixel strictly
inside those bounds unchanged. -/
theorem claim_C7_iqr_clip (a : List ℚ) (hne : a ≠ []) (i : Nat)
    (hi : i < a.length) :
    (a.getD i 0 < step2LoBound a → (step2Image a).getD i 0 = step2LoBound a) ∧
    (step2HiBound a < a.getD i 0 → (step2Image a).getD i 0 = step2HiBound a) ∧
    (step2LoBound a < a.getD i 0 → a.getD i 0 < step2HiBound a →
      (step2Image a).getD i 0 = a.getD i 0) := by
  have hQ : npQuantile a (1/4) ≤ npQuantile a (3/4) :=
    npQuantile_mono a hne (1/4) (3/4) (by norm_num) (by norm_num) (by norm_num)
  have hlohi : step2LoBound a ≤ step2HiBound a := by
    unfold step2LoBound step2HiBound
    linarith
  have hmap : (step2Image a).getD i 0 =
      step2Clip (step2LoBound a) (step2HiBound a) (a.getD i 0) := by
    unfold step2Image
    rw [List.getD_eq_getElem?_getD, List.getElem?_map, List.getElem?_eq_getElem hi]
    rw [List.getD_eq_getElem?_getD, List.getElem?_eq_getElem hi]
    rfl
  refine ⟨?_, ?_, ?_⟩
  · intro hx
    rw [hmap]
    unfold step2Clip
    rw [if_pos (le_of_lt hx)]
  · intro hx
    rw [hmap]
    unfold step2Clip
    rw [if_neg (by linarith), if_pos hx]
  · intro hx1 hx2
    rw [hmap]
    unfold step2Clip
    rw [if_neg (by linarith), if_neg (by linarith)]

/-- Pixel array for the C7 witness. -/
def c7A : List ℚ := [0, 4, 8, 100]

theorem claim_C7_iqr_clip_witness :
    c7A ≠ [] ∧ 3 < c7A.length ∧
    ((c7A.getD 3 0 < step2LoBound c7A →
      (step2Image c7A).getD 3 0 = step2LoBound c7A) ∧
    (step2HiBound c7A < c7A.getD 3 0 →
      (step2Image c7A).getD 3 0 = step2HiBound c7A) ∧
    (step2LoBound c7A < c7A.getD 3 0 → c7A.getD 3 0 < step2HiBound c7A →
      (step2Image c7A).getD 3 0 = c7A.getD 3 0)) :=
  ⟨by decide, by decide, claim_C7_iqr_clip c7A (by decide) 3 (by decide)⟩

/-!
## C8: output filenames

`Enrichment_Thermo.save_images` writes each composite image under
`re.sub("  ", " ", composite_image_name)`; every other stage's `save_images`
writes under `basename(path)`, identical to the source filename.
-/

/-- `re.sub("  ", " ", s)`: collapse each non-overlapping pair of consecutive
space characters into a single space, scanning left to right. -/
def collapseDS : Name → Name
  | [] => []
  | [c] => [c]
  | a :: b :: rest =>
    if a = ' ' ∧ b = ' ' then ' ' :: collapseDS rest
    else a :: collapseDS (b :: rest)

/-- No two consecutive space characters occur in the string. -/
def noDS : Name → Bool
  | [] => true
  | [_] => true
  | a :: b :: rest => if a = ' ' ∧ b = ' ' then false else noDS (b :: rest)

theorem collapseDS_cons (a b : Char) (rest : Name) :
    collapseDS (a :: b :: rest) =
      if a = ' ' ∧ b = ' ' then ' ' :: collapseDS rest
      else a :: collapseDS (b :: rest) := rfl

theorem noDS_cons (a b : Char) (rest : Name) :
    noDS (a :: b :: rest) =
      if a = ' ' ∧ b = ' ' then false else noDS (b :: rest) := rfl

theorem collapseDS_of_noDS : ∀ l : Name, noDS l = true → collapseDS l = l := by
  intro l
  induction l with
  | nil => intro _; rfl
  | cons c rest ih =>
    intro h
    cases rest with
    | nil => rfl
    | cons c2 rest2 =>
      rw [noDS_cons] at h
      rw [collapseDS_cons]
      by_cases hsp : c = ' ' ∧ c2 = ' '
      · rw [if_pos hsp] at h
        cases h
      · rw [if_neg hsp] at h
        rw [if_neg hsp, ih h]

theorem collapseDS_append_sep : ∀ p s : Name, noDS (p ++ [' ']) = true →
    collapseDS (p ++ ' ' :: ' ' :: s) = p ++ ' ' :: collapseDS s := by
  intro p
  induction p with
  | nil =>
    intro s _
    rw [List.nil_append, List.nil_append, collapseDS_cons, if_pos ⟨rfl, rfl⟩]
  | cons c p' ih =>
    intro s h
    cases p' with
    | nil =>
      have hc : ¬ c = ' ' := by
        intro hx
        rw [show ([c] ++ [' '] : Name) = c :: ' ' :: [] from rfl, noDS_cons,
          if_pos ⟨hx, rfl⟩] at h
        cases h
      show collapseDS (c :: ' ' :: ' ' :: s) = c :: ' ' :: collapseDS s
      rw [collapseDS_cons, if_neg (fun hx => hc hx.1), collapseDS_cons,
        if_pos ⟨rfl, rfl⟩]
    | cons d p'' =>
      have hstep : noDS (c :: d :: (p'' ++ [' '])) = true := h
      rw [noDS_cons] at hstep
      by_cases hsp : c = ' ' ∧ d = ' '
      · rw [if_pos hsp] at hstep
        cases hstep
      · rw [if_neg hsp] at hstep
        show collapseDS (c :: (d :: p'' ++ ' ' :: ' ' :: s)) =
          c :: (d :: p'' ++ ' ' :: collapseDS s)
        rw [show (d :: p'' ++ ' ' :: ' ' :: s : Name) =
            d :: (p'' ++ ' ' :: ' ' :: s) from rfl, collapseDS_cons]
        rw [show (p'' ++ ' ' :: ' ' :: s : Name) =
            p'' ++ ' ' :: ' ' :: s from rfl]
        rw [if_neg hsp]
        congr 1
        exact ih s hstep

/-- The filename `Enrichment_Thermo.save_images` writes one composite under. -/
def enrichmentSaveName (key : Name) : Name := collapseDS key

/-- The filename every other stage's `save_images` writes one image under. -/
def stageSaveName (path : Name) : Name := basename path

/-- C8.  The Enrichment save step writes the merged image under the composite
group key with the double-space separator collapsed to a single space (for the
contract's keys — no double space inside the prefix or suffix and no trailing
space on the prefix — this is exactly `prefix ++ " " ++ suffix`), and every
other stage saves images under filenames identical to their source
filenames. -/
theorem claim_C8_save_filenames (p s : Name)
    (hp : noDS (p ++ [' ']) = true) (hs : noDS s = true) :
    enrichmentSaveName (keyOf p s) = p ++ ' ' :: s ∧
    ∀ path : Name, stageSaveName path = basename path := by
  constructor
  · show collapseDS (p ++ ' ' :: ' ' :: s) = p ++ ' ' :: s
    rw [collapseDS_append_sep p s hp, collapseDS_of_noDS s hs]
  · intro path
    rfl

theorem claim_C8_save_filenames_witness :
    noDS ("SampleA".toList ++ [' ']) = true ∧ noDS "SampleB.png".toList = true ∧
    (enrichmentSaveName (keyOf "SampleA".toList "SampleB.png".toList) =
        "SampleA".toList ++ ' ' :: "SampleB.png".toList ∧
      ∀ path : Name, stageSaveName path = basename path) :=
  ⟨by decide, by decide,
    claim_C8_save_filenames "SampleA".toList "SampleB.png".toList
      (by decide) (by decide)⟩

/-!
## C9: defect-detection threshold filtering and save

`DefectDetection_Thermo.defect_detection` filters each image's predictions by
`output_dict['scores'] > self.threshold`, skips the image entirely when no
detection survives (`if len(colors) == 0: continue`), and otherwise stores the
annotated image; `save_images` writes one file per stored entry into
`5.DefectDetected_images` under the input path's basename.
-/

/-- One model detection: confidence score, bounding box, class id. -/
structure Detection where
  score : ℚ
  box : ℚ × ℚ × ℚ × ℚ
  cls : Nat
deriving DecidableEq

/-- `[...][output_dict['scores'] > self.threshold]`: keep exactly the
detections whose confidence strictly exceeds the threshold, each decided
independently. -/
def detectFilter (thr : ℚ) (dets : List Detection) : List Detection :=
  dets.filter (fun d => decide (thr < d.score))

/-- `DefectDetection_Thermo.defect_detection`: the per-path loop, including the
`if len(colors) == 0: continue` skip. -/
def defectDetect (model : Name → List Detection) (thr : ℚ) (paths : List Name) :
    List (Name × List Detection) :=
  paths.foldl (fun acc p =>
    if (detectFilter thr (model p)).length = 0 then acc
    else acc ++ [(p, detectFilter thr (model p))]) []

/-- The filenames `DefectDetection_Thermo.save_images` writes into
`5.DefectDetected_images`. -/
def defectSaveNames (results : List (Name × List Detection)) : List Name :=
  results.map (fun e => basename e.1)

theorem foldl_defectDetect (model : Name → List Detection) (thr : ℚ) :
    ∀ (paths : List Name) (acc : List (Name × List Detection)),
    paths.foldl (fun acc p =>
      if (detectFilter thr (model p)).length = 0 then acc
      else acc ++ [(p, detectFilter thr (model p))]) acc =
    acc ++ (paths.filter
        (fun p => !((detectFilter thr (model p)).length == 0))).map
      (fun p => (p, detectFilter thr (model p))) := by
  intro paths
  induction paths with
  | nil => intro acc; simp
  | cons p ps ih =>
    intro acc
    rw [List.foldl_cons]
    by_cases hlen : (detectFilter thr (model p)).length = 0
    · rw [if_pos hlen, ih acc, List.filter_cons]
      simp [hlen]
    · rw [if_neg hlen, ih (acc ++ [(p, detectFilter thr (model p))]),
        List.filter_cons]
      simp [hlen]

/-- C9 (amended).  The Defect Detector keeps exactly the detections whose
confidence strictly exceeds the threshold, deciding each detection
independently, and its save step writes one annotated image — under the input
path's basename — per input path *with at least one surviving detection*;
inputs whose detections are all filtered out are skipped and produce no output
file. -/
theorem claim_C9_defect_threshold (model : Name → List Detection) (thr : ℚ)
    (paths : List Name) :
    defectDetect model thr paths =
      (paths.filter
          (fun p => !((detectFilter thr (model p)).length == 0))).map
        (fun p => (p, detectFilter thr (model p))) ∧
    defectSaveNames (defectDetect model thr paths) =
      (paths.filter
          (fun p => !((detectFilter thr (model p)).length == 0))).map basename ∧
    ∀ e ∈ defectDetect model thr paths,
      (e.2 : List Detection) = detectFilter thr (model e.1) := by
  have hfold := foldl_defectDetect model thr paths []
  refine ⟨hfold, ?_, ?_⟩
  · unfold defectSaveNames defectDetect
    rw [hfold]
    simp [List.map_map]
  · intro e he
    rw [show defectDetect model thr paths = _ from hfold] at he
    simp only [List.nil_append] at he
    rcases List.mem_map.mp he with ⟨p, _, rfl⟩
    rfl


/-- Model for the C9 witness: one sub-threshold detection on `a.png`, one
passing detection on every other path. -/
def c9Mix : Name → List Detection := fun p =>
  if p = "a.png".toList then [⟨0, (0, 0, 1, 1), 0⟩] else [⟨5, (0, 0, 1, 1), 1⟩]

def c9Paths : List Name := ["a.png".toList, "b.png".toList]

theorem claim_C9_defect_threshold_witness :
    defectDetect c9Mix 1 c9Paths =
      (c9Paths.filter
          (fun p => !((detectFilter 1 (c9Mix p)).length == 0))).map
        (fun p => (p, detectFilter 1 (c9Mix p))) ∧
    defectSaveNames (defectDetect c9Mix 1 c9Paths) =
      (c9Paths.filter
          (fun p => !((detectFilter 1 (c9Mix p)).length == 0))).map basename ∧
    ∀ e ∈ defectDetect c9Mix 1 c9Paths,
      (e.2 : List Detection) = detectFilter 1 (c9Mix e.1) :=
  claim_C9_defect_threshold c9Mix 1 c9Paths

/-- Model for the C9 counterexample: one detection of confidence 0 on every
image, below the threshold 1. -/
def c9Model : Name → List Detection := fun _ => [⟨0, (0, 0, 1, 1), 0⟩]

/-- C9 (counterexample).  The claim "the save step writes one annotated image
per input path" fails: an input whose detections are all at or below the
threshold is skipped by `if len(colors) == 0: continue`, so nothing at all is
written for it. -/
theorem claim_C9_counterexample :
    "a.png".toList ∈ (["a.png".toList] : List Name) ∧
    defectDetect c9Model 1 ["a.png".toList] = [] ∧
    defectSaveNames (defectDetect c9Model 1 ["a.png".toList]) = [] := by
  refine ⟨by decide, ?_, ?_⟩ <;> decide

/-!
## C10: collaborator handoff and the `AttributeError` fallback

Each stage's `load_images` runs
`try: self.image_paths = collaborator.load_images();
self.Image_directory = collaborator.Image_directory
except AttributeError: <glob the stage's own numbered directory>`.
-/

/-- Python exceptions relevant to the handoff. -/
inductive PyErr
  | attributeError
  | otherError
deriving DecidableEq

/-- A collaborator stage: its `load_images()` call either returns the image
paths or raises, and it carries an `Image_directory` attribute (every concrete
product sets one in `__init__`). -/
structure Collab where
  loadResult : Except PyErr (List Name)
  imageDir : Name

/-- The `try` body: `collaborator.load_images()` then
`collaborator.Image_directory`; the method call on `None` raises
`AttributeError`. -/
def collabHandoff (collab : Option Collab) : Except PyErr (List Name × Name) :=
  match collab with
  | none => .error .attributeError
  | some c => c.loadResult.map (fun ps => (ps, c.imageDir))

/-- A stage `load_images`: the handoff inside
`try: ... except AttributeError: <disk fallback>`; any other exception
propagates. -/
def stageLoadImages (collab : Option Collab) (ownDir : Name)
    (diskGlob : Name → List Name) : Except PyErr (List Name × Name) :=
  match collabHandoff collab with
  | .ok r => .ok r
  | .error .attributeError => .ok (diskGlob ownDir, ownDir)
  | .error e => .error e

theorem collabHandoff_some (c : Collab) :
    collabHandoff (some c) = c.loadResult.map (fun ps => (ps, c.imageDir)) := rfl

theorem stageLoadImages_eq (collab : Option Collab) (ownDir : Name)
    (diskGlob : Name → List Name) :
    stageLoadImages collab ownDir diskGlob =
      match collabHandoff collab with
      | .ok r => .ok r
      | .error .attributeError => .ok (diskGlob ownDir, ownDir)
      | .error e => .error e := rfl

/-- C10.  The disk fallback is taken not only for `collaborator = None` but
whenever the handoff raises `AttributeError` — including one raised inside a
genuine collaborator's own `load_images` body, which is silently absorbed while
any other exception propagates; only when the handoff completes without
`AttributeError` are the collaborator's image paths and `Image_directory`
used. -/
theorem claim_C10_attr_fallback (c : Collab) (ownDir : Name)
    (diskGlob : Name → List Name) :
    stageLoadImages none ownDir diskGlob = .ok (diskGlob ownDir, ownDir) ∧
    (c.loadResult = .error .attributeError →
      stageLoadImages (some c) ownDir diskGlob = .ok (diskGlob ownDir, ownDir)) ∧
    (c.loadResult = .error .otherError →
      stageLoadImages (some c) ownDir diskGlob = .error .otherError) ∧
    (∀ ps, c.loadResult = .ok ps →
      stageLoadImages (some c) ownDir diskGlob = .ok (ps, c.imageDir)) := by
  refine ⟨rfl, ?_, ?_, ?_⟩
  · intro h
    rw [stageLoadImages_eq, collabHandoff_some, h]
    rfl
  · intro h
    rw [stageLoadImages_eq, collabHandoff_some, h]
    rfl
  · intro ps h
    rw [stageLoadImages_eq, collabHandoff_some, h]
    rfl

/-- A collaborator whose `load_images` body raises `AttributeError`. -/
def c10Collab : Collab := ⟨.error .attributeError, "somedir".toList⟩

def c10Glob : Name → List Name := fun _ => ["img.png".toList]

theorem claim_C10_attr_fallback_witness :
    c10Collab.loadResult = .error .attributeError ∧
    stageLoadImages (some c10Collab) "own".toList c10Glob =
      .ok (c10Glob "own".toList, "own".toList) :=
  ⟨rfl, (claim_C10_attr_fallback c10Collab "own".toList c10Glob).2.1 rfl⟩

end Pipeline
